import Mathlib

/-!
# Verification of the move-engine windowed-move computation core

Shallow embedding of the engine found in `scripts/engine_run.mjs` and its
near-duplicate second revision (the unnamed source file), together with
proofs about the probability normalizer, the as-of lookup, the window delta
calculator, ingestion, and the keyed-upsert storage boundary.

Conventions of the embedding:
* JavaScript numbers are modelled as `JNum`: either a finite rational or a
  single `nonfinite` value standing for `NaN`/`±Infinity` (the engine only
  ever distinguishes numbers via `Number.isFinite` before using them).
* A JSON/JS string value carries, alongside its raw text, the value that
  `JSON.parse` yields on that text (`none` when parsing would throw).  This
  keeps the embedding independent of the JS JSON grammar while remaining
  faithful at every concrete input used below.
* Timestamps are epoch milliseconds (`Int`); `new Date(s).getTime()` on the
  ISO strings stored by the engine is order- and value-faithful to this.
* `undefined` (absent property, optional chaining on a non-object) is
  modelled by `Option`: `jGet` returns `none` for it.
-/

/-- A JavaScript number: a finite rational, or NaN/±Infinity collapsed into
one non-finite value (the engine only tests numbers with `Number.isFinite`
and never distinguishes NaN from Infinity). -/
inductive JNum : Type where
  | nonfinite : JNum
  | fin : ℚ → JNum
deriving DecidableEq

/-- A JavaScript/JSON value as seen by the engine.  A string carries the
result `JSON.parse` would give on its text (`none` = parse throws). -/
inductive JsonVal : Type where
  | jnull : JsonVal
  | jbool : Bool → JsonVal
  | jnum : JNum → JsonVal
  | jstr : String → Option JsonVal → JsonVal
  | jarr : List JsonVal → JsonVal
  | jobj : List (String × JsonVal) → JsonVal

namespace JsEngine

open JsonVal JNum

/-- Property access `m?.[k]`: `none` models `undefined` (non-object
receiver or absent key); a present key with JSON `null` is `some jnull`. -/
def jGet (m : JsonVal) (k : String) : Option JsonVal :=
  match m with
  | .jobj fields => (fields.find? (fun p => decide (p.1 = k))).map (·.2)
  | _ => none

/-- The nullish-coalescing operator `a ?? b`: `undefined` and `null` fall
through to `b`. -/
def jCoalesce (a b : Option JsonVal) : Option JsonVal :=
  match a with
  | none => b
  | some .jnull => b
  | some v => some v

/-- Digit list to natural number value. -/
def digitsVal (cs : List Char) : Nat :=
  cs.foldl (fun a c => a * 10 + (c.toNat - 48)) 0

/-- Decimal-literal body of the JS `Number(string)` conversion: optional
integer part, optional `.fraction`.  (Hex, exponent and `Infinity` literals
are outside the model; no concrete input below uses them.) -/
def parseDecCore (cs : List Char) : Option ℚ :=
  let intPart := cs.takeWhile (fun c => c ≠ '.')
  match cs.dropWhile (fun c => c ≠ '.') with
  | [] =>
      if intPart ≠ [] ∧ intPart.all Char.isDigit then some (digitsVal intPart) else none
  | '.' :: frac =>
      if (intPart ≠ [] ∨ frac ≠ []) ∧ intPart.all Char.isDigit ∧ frac.all Char.isDigit then
        some ((digitsVal intPart : ℚ) + (digitsVal frac : ℚ) / (10 : ℚ) ^ frac.length)
      else none
  | _ => none

/-- JS whitespace for `Number(string)` trimming (ASCII subset). -/
def isSpaceChar (c : Char) : Bool :=
  c = ' ' ∨ c = '\t' ∨ c = '\n' ∨ c = '\r'

/-- The JS `Number(string)` conversion, restricted to decimal literals:
trims whitespace, maps the empty string to `0`, accepts an optional sign,
and otherwise yields NaN. -/
def strToNumber (s : String) : JNum :=
  let cs := ((s.toList.dropWhile isSpaceChar).reverse.dropWhile isSpaceChar).reverse
  match cs with
  | [] => .fin 0
  | '+' :: rest => match parseDecCore rest with
      | some q => .fin q
      | none => .nonfinite
  | '-' :: rest => match parseDecCore rest with
      | some q => .fin (-q)
      | none => .nonfinite
  | _ => match parseDecCore cs with
      | some q => .fin q
      | none => .nonfinite

/-- JS number-to-string.  Integers render exactly; other finite values are
rendered as `num/den` (the engine never compares a rendered non-integer
number against anything but `"yes"`/emptiness, for which only exactness of
integers and non-emptiness matter). -/
def jnumToString (n : JNum) : String :=
  match n with
  | .nonfinite => "NaN"
  | .fin q => if q.den = 1 then toString q.num else toString q

mutual

/-- The JS `String(v)` conversion.  Array elements that are `null` render
as `"null"` here where JS `Array.prototype.join` renders them as the empty
string; no theorem below evaluates `jsToString` on an array containing
`null`. -/
def jsToString : JsonVal → String
  | .jnull => "null"
  | .jbool b => cond b "true" "false"
  | .jnum n => jnumToString n
  | .jstr s _ => s
  | .jobj _ => "[object Object]"
  | .jarr xs => jsArrJoin xs

/-- Comma join of array elements, as in JS `Array.prototype.toString`. -/
def jsArrJoin : List JsonVal → String
  | [] => ""
  | [x] => jsToString x
  | x :: y :: rest => jsToString x ++ "," ++ jsArrJoin (y :: rest)

end

/-- The JS `Number(v)` conversion on engine-relevant values.  An array is
converted via its string form: the empty array is `0`, a multi-element
array always contains a comma and is NaN, and a one-element array converts
its element (exact for numbers, strings and `null`; a nested array or
boolean inside a singleton is modelled as NaN). -/
def toNumber : JsonVal → JNum
  | .jnull => .fin 0
  | .jbool b => .fin (cond b 1 0)
  | .jnum n => n
  | .jstr s _ => strToNumber s
  | .jobj _ => .nonfinite
  | .jarr [] => .fin 0
  | .jarr [x] =>
      match x with
      | .jnum n => n
      | .jstr s _ => strToNumber s
      | .jnull => .fin 0
      | _ => .nonfinite
  | .jarr (_ :: _ :: _) => .nonfinite

/-- ASCII lower-casing of one character (the outcome labels the engine
compares against `"yes"` are ASCII). -/
def charToLower (c : Char) : Char :=
  if 65 ≤ c.toNat ∧ c.toNat ≤ 90 then Char.ofNat (c.toNat + 32) else c

/-- JS `String.prototype.toLowerCase`, restricted to ASCII. -/
def jsToLower (s : String) : String :=
  String.mk (s.data.map charToLower)

/-- JS `Array.prototype.findIndex` restricted to a Bool predicate: index
of the first element satisfying it (`none` for JS's -1). -/
def findIndex (p : JsonVal → Bool) : List JsonVal → Option Nat
  | [] => none
  | x :: xs => if p x then some 0 else (findIndex p xs).map (· + 1)

/-- `Number(xs[i])`: out-of-bounds indexing gives `undefined`, and
`Number(undefined)` is NaN. -/
def toNumberAt (xs : List JsonVal) (i : Nat) : JNum :=
  match xs.get? i with
  | some v => toNumber v
  | none => .nonfinite

/-- `clamp01` from the second revision: non-numbers and non-finite numbers
are unknown; a value above 1 is interpreted as a percentage and divided by
100; anything still outside [0,1] is unknown, never clamped. -/
def clamp01 (n : JNum) : Option ℚ :=
  match n with
  | .nonfinite => none
  | .fin x =>
      let x := if x > 1 then x / 100 else x
      if x < 0 ∨ x > 1 then none else some x

/-- `toArray` from the second revision: an array is itself; a string is
JSON-parsed and accepted when the parse yields an array; anything else
(including `undefined`) is `null`. -/
def toArray (v : Option JsonVal) : Option (List JsonVal) :=
  match v with
  | some (.jarr xs) => some xs
  | some (.jstr _ parsed) =>
      match parsed with
      | some (.jarr xs) => some xs
      | _ => none
  | _ => none

/-- The direct-field scan of the second revision's `parseProb`: the first
key holding a number returns `clamp01` of it (ending the scan even when
`clamp01` is `null`); a string key that parses to a finite number likewise
returns; a non-numeric string or any other value falls through to the next
key.  Outer `none` = the scan fell through every key. -/
def scanDirect (m : JsonVal) : List String → Option (Option ℚ)
  | [] => none
  | k :: rest =>
      match jGet m k with
      | some (.jnum n) => some (clamp01 n)
      | some (.jstr s _) =>
          match strToNumber s with
          | .fin q => some (clamp01 (.fin q))
          | .nonfinite => scanDirect m rest
      | _ => scanDirect m rest

/-- The yes-index block of the second revision's `parseProb`.  When both
collections exist with equal lengths, an index matched and its price is a
finite number, the source executes `return clamp01(v)` — a terminal
return even when `clamp01` yields null — modelled as `some (clamp01 v)`.
The outer `none` (no collections, length mismatch, no "yes" index, or a
non-finite price) is the only case that falls through to the first-price
fallback. -/
def yesIndexPrice (outcomes prices : Option (List JsonVal)) : Option (Option ℚ) :=
  match outcomes, prices with
  | some outs, some pr =>
      if outs.length = pr.length then
        match findIndex (fun o => decide (jsToLower (jsToString o) = "yes")) outs with
        | some idx =>
            match toNumberAt pr idx with
            | .fin v => some (clamp01 (.fin v))
            | .nonfinite => none
        | none => none
      else none
  | _, _ => none

/-- The first-price fallback block of the second revision's `parseProb`. -/
def firstPrice (prices : Option (List JsonVal)) : Option ℚ :=
  match prices with
  | some pr =>
      if pr.length > 0 then
        match toNumberAt pr 0 with
        | .fin v => clamp01 (.fin v)
        | .nonfinite => none
      else none
  | none => none

/-- `parseProb` of the second revision (the unnamed near-duplicate file):
direct keys first, then yes-index matching over `outcomes`/`outcomePrices`
(or `outcome_prices`), then the first-price fallback; every accepted value
passes through `clamp01`. -/
def parseProbPart1 (m : JsonVal) : Option ℚ :=
  match scanDirect m ["probability", "probabilityYes", "pYes", "yesProbability", "yesPrice"] with
  | some r => r
  | none =>
    let outcomes := toArray (jGet m "outcomes")
    let prices := toArray (jCoalesce (jGet m "outcomePrices") (jGet m "outcome_prices"))
    match yesIndexPrice outcomes prices with
    | some r => r
    | none => firstPrice prices

/-- `parseProb` of `scripts/engine_run.mjs`: a string `outcomePrices` that
JSON-parses to an array of length ≥ 2 returns its first entry; an array
`outcomePrices` of length ≥ 2 returns its first entry; then the direct
numeric fields `probability`, `pYes`, `yesPrice` are returned raw (no
clamping, possibly non-finite); then, only when both `outcomes` and
`outcomePrices` are strings, the yes-index match; otherwise `null`. -/
def parseProbScripts (m : JsonVal) : Option JNum :=
  let prices := jGet m "outcomePrices"
  let outcomes := jGet m "outcomes"
  let step1 : Option JNum :=
    match prices with
    | some (.jstr _ parsed) =>
        match parsed with
        | some (.jarr arr) =>
            if arr.length ≥ 2 then
              match toNumberAt arr 0 with
              | .fin q => some (.fin q)
              | .nonfinite => none
            else none
        | _ => none
    | _ => none
  match step1 with
  | some r => some r
  | none =>
    let step2 : Option JNum :=
      match prices with
      | some (.jarr arr) =>
          if arr.length ≥ 2 then
            match toNumberAt arr 0 with
            | .fin q => some (.fin q)
            | .nonfinite => none
          else none
      | _ => none
    match step2 with
    | some r => some r
    | none =>
      match jGet m "probability" with
      | some (.jnum n) => some n
      | _ =>
        match jGet m "pYes" with
        | some (.jnum n) => some n
        | _ =>
          match jGet m "yesPrice" with
          | some (.jnum n) => some n
          | _ =>
            match outcomes, prices with
            | some (.jstr _ oParsed), some (.jstr _ pParsed) =>
                match oParsed, pParsed with
                | some (.jarr outs), some (.jarr pr) =>
                    if outs.length = pr.length then
                      match findIndex (fun o => decide (jsToLower (jsToString o) = "yes")) outs with
                      | some idx =>
                          match toNumberAt pr idx with
                          | .fin q => some (.fin q)
                          | .nonfinite => none
                      | none => none
                    else none
                | _, _ => none
            | _, _ => none


/-! ## Snapshots, as-of lookup and the window delta calculator -/

/-- One snapshot row as read back from the `snapshots` table
(`platform_id` is the constant `"polymarket"` and is omitted).  `tsMs` is
the row's `ts` as epoch milliseconds; `prob_yes` is `null` or a number. -/
structure SnapRow : Type where
  market_id : String
  tsMs : Int
  prob_yes : Option ℚ
deriving DecidableEq

/-- `pickProbAtOrBefore` (identical in both revisions): forward scan that
remembers the last point with timestamp ≤ the target and breaks at the
first later point. -/
def pickProbAtOrBefore : List SnapRow → Int → Option SnapRow
  | [], _ => none
  | p :: rest, tMs =>
      if p.tsMs ≤ tMs then
        match pickProbAtOrBefore rest tMs with
        | some q => some q
        | none => some p
      else none

/-- `windowToMs` of `scripts/engine_run.mjs` (the second revision adds a
`"1m"` key and defaults to 24h; the claims below use keys on which both
agree). -/
def windowToMs (windowKey : String) : Int :=
  if windowKey = "5m" then 5 * 60 * 1000
  else if windowKey = "1h" then 60 * 60 * 1000
  else if windowKey = "6h" then 6 * 60 * 60 * 1000
  else if windowKey = "24h" then 24 * 60 * 60 * 1000
  else 5 * 60 * 1000

/-- One row of the `moves` table (constant `platform_id` and
`trust_score = 100` omitted; `prob_now`/`prob_then` keep the `Option`
of the snapshot they came from). -/
structure MoveRow : Type where
  market_id : String
  window_key : String
  ts_end : Int
  prob_now : Option ℚ
  prob_then : Option ℚ
  delta : ℚ
deriving DecidableEq

/-- The numeric filter at the top of `computeMoves`: rows whose `prob_yes`
is `null` (or not a number) are dropped before grouping by market. -/
def numericRows (rows : List SnapRow) : List SnapRow :=
  rows.filter (fun r => r.prob_yes.isSome)

/-- Keys of the `byMarket` JS `Map` in iteration order: first occurrence
order of `market_id` in the (already filtered) row list. -/
def marketIdsInOrder (rows : List SnapRow) : List String :=
  rows.foldl (fun acc r => if r.market_id ∈ acc then acc else acc ++ [r.market_id]) []

/-- The rows collected for one market, in encounter order (the pushes into
`byMarket.get(key)`). -/
def pointsFor (rows : List SnapRow) (id : String) : List SnapRow :=
  rows.filter (fun r => decide (r.market_id = id))

/-- The body of the per-market loop of `computeMoves`: skip markets with
fewer than two points, take the latest point as "now", look up "then" at
(end − window), emit one move.  JS subtracts the raw `prob_yes` values;
after the numeric filter both are numbers, and the unreachable `null` case
coerces to 0 exactly as JS arithmetic does. -/
def marketMove (windowKey : String) (market_id : String) (points : List SnapRow) :
    Option MoveRow :=
  if points.length < 2 then none
  else
    match points.getLast? with
    | none => none
    | some latest =>
        match pickProbAtOrBefore points (latest.tsMs - windowToMs windowKey) with
        | none => none
        | some thenPt =>
            some { market_id := market_id
                   window_key := windowKey
                   ts_end := latest.tsMs
                   prob_now := latest.prob_yes
                   prob_then := thenPt.prob_yes
                   delta := latest.prob_yes.getD 0 - thenPt.prob_yes.getD 0 }

/-- The pure core of `computeMoves`: filter to numeric rows, group by
market in first-occurrence order, and emit one move per market that
produces both values. -/
def computeMoves (windowKey : String) (rows : List SnapRow) : List MoveRow :=
  let numRows := numericRows rows
  (marketIdsInOrder numRows).filterMap
    (fun id => marketMove windowKey id (pointsFor numRows id))

/-! ## Ingestion -/

/-- One row of the `markets` table (constant `platform_id` omitted). -/
structure MarketRow : Type where
  market_id : String
  title : Option JsonVal
  rules : Option JsonVal
  close_time : Option JsonVal
  status : String
  raw : JsonVal
  updated_at : Int

/-- `m?.a ?? m?.b ?? m?.c`, as an `Option JsonVal`. -/
def jGetChain (m : JsonVal) (ks : List String) : Option JsonVal :=
  ks.foldr (fun k acc => jCoalesce (jGet m k) acc) none

/-- `String(m?.id ?? m?.market_id ?? m?.slug ?? "")`: the first non-nullish
of the three fields is stringified (the empty string when all three are
nullish). -/
def deriveId (m : JsonVal) : String :=
  match jGetChain m ["id", "market_id", "slug"] with
  | some v => jsToString v
  | none => ""

/-- The market metadata row built for one upstream record. -/
def marketRowOf (ts : Int) (m : JsonVal) : MarketRow :=
  { market_id := deriveId m
    title := jGetChain m ["question", "title", "name"]
    rules := jGetChain m ["rules", "description"]
    close_time := jGetChain m ["endDate", "end_date", "closeTime"]
    status := match jGetChain m ["active", "status"] with
              | some v => jsToString v
              | none => ""
    raw := m
    updated_at := ts }

/-- The snapshot row built for one upstream record.  The probability
crosses the storage boundary as JSON, where a non-finite number
serialises to `null`. -/
def snapshotRowOf (ts : Int) (m : JsonVal) : SnapRow :=
  { market_id := deriveId m
    tsMs := ts
    prob_yes := match parseProbScripts m with
                | some (.fin q) => some q
                | _ => none }

/-- The accumulation loop of `ingestPolymarket`: records whose derived id
is empty are skipped entirely; every other record contributes one market
row and one snapshot row, all stamped with the single run timestamp. -/
def ingestRows (ts : Int) : List JsonVal → List MarketRow × List SnapRow
  | [] => ([], [])
  | m :: rest =>
      let (mrows, srows) := ingestRows ts rest
      if deriveId m = "" then (mrows, srows)
      else (marketRowOf ts m :: mrows, snapshotRowOf ts m :: srows)

/-! ## The keyed-upsert storage boundary -/

/-- Modelled from the spec: the storage boundary is "an abstract
keyed-upsert + ordered-range-read store"; a batch upsert writes each row
in order, overwriting the row with the same key when one exists and
appending otherwise. -/
def upsertRow {K V : Type} [DecidableEq K] (s : List (K × V)) (r : K × V) : List (K × V) :=
  if s.any (fun p => decide (p.1 = r.1)) then
    s.map (fun p => if p.1 = r.1 then r else p)
  else s ++ [r]

/-- A batch upsert, row by row in order. -/
def upsertRows {K V : Type} [DecidableEq K] (s : List (K × V)) (rows : List (K × V)) :
    List (K × V) :=
  rows.foldl upsertRow s

/-- The three tables the engine writes, each as a keyed row list.
Keys: markets on `market_id`, snapshots on `(market_id, ts)`, moves on
`(market_id, window_key, ts_end)` (constant `platform_id` omitted). -/
structure DB : Type where
  markets : List (String × MarketRow)
  snapshots : List ((String × Int) × SnapRow)
  moves : List ((String × String × Int) × MoveRow)

/-- `ingestPolymarket` as a state transformer: build both row batches from
the fetched records and one run timestamp, then batch-upsert each table. -/
def ingestPolymarket (db : DB) (markets : List JsonVal) (ts : Int) : DB :=
  let rows := ingestRows ts markets
  { db with
    markets := upsertRows db.markets (rows.1.map (fun r => (r.market_id, r)))
    snapshots := upsertRows db.snapshots (rows.2.map (fun r => ((r.market_id, r.tsMs), r))) }

/-- Stable insertion by timestamp, used to model the `order("ts",
ascending)` read below. -/
def insertByTs (r : SnapRow) : List SnapRow → List SnapRow
  | [] => [r]
  | x :: xs => if x.tsMs ≤ r.tsMs then x :: insertByTs r xs else r :: x :: xs

/-- Sort a row list ascending by timestamp. -/
def sortByTs (l : List SnapRow) : List SnapRow :=
  l.foldr insertByTs []

/-- The snapshot read of `computeMoves`: rows with `ts ≥ since`, ordered
ascending by `ts` (the row-count limit of the query is not modelled). -/
def readSnapshots (db : DB) (since : Int) : List SnapRow :=
  sortByTs ((db.snapshots.map (·.2)).filter (fun r => since ≤ r.tsMs))

/-- One `computeMoves(windowKey)` call as a state transformer: read the
recent snapshots, compute the move batch, and batch-upsert it into the
`moves` table.  `since` is the lookback cutoff computed from the window
and the wall clock. -/
def computeMovesDb (windowKey : String) (since : Int) (db : DB) : DB :=
  { db with
    moves := upsertRows db.moves
      ((computeMoves windowKey (readSnapshots db since)).map
        (fun r => ((r.market_id, r.window_key, r.ts_end), r))) }


/-! ## Concrete inputs used by the claims -/

/-- The spec's as-of example series: points at t = 0, 10, 20, 30 minutes
with probabilities 0.40, 0.45, 0.50, 0.55 (timestamps in milliseconds). -/
def asOfExample : List SnapRow :=
  [⟨"m", 0, some (2/5)⟩, ⟨"m", 600000, some (9/20)⟩,
   ⟨"m", 1200000, some (1/2)⟩, ⟨"m", 1800000, some (11/20)⟩]

/-- A record with `outcomes=["No","Yes"]` and `outcomePrices=["0.3","0.7"]`. -/
def recNoYes : JsonVal :=
  .jobj [("outcomes", .jarr [.jstr "No" none, .jstr "Yes" none]),
         ("outcomePrices", .jarr [.jstr "0.3" none, .jstr "0.7" none])]

/-- The same record with both collections JSON-encoded as strings, the
form the upstream API actually serves. -/
def recNoYesStr : JsonVal :=
  .jobj [("outcomes", .jstr "[\"No\",\"Yes\"]"
            (some (.jarr [.jstr "No" none, .jstr "Yes" none]))),
         ("outcomePrices", .jstr "[\"0.3\",\"0.7\"]"
            (some (.jarr [.jstr "0.3" none, .jstr "0.7" none])))]

/-- A record whose matched yes price is finite but clamp-rejected:
`outcomes=["No","Yes"]`, `outcomePrices=[0.3, 150]` (150 → 1.5 after the
percentage division, still outside [0,1]). -/
def recYesPrice150 : JsonVal :=
  .jobj [("outcomes", .jarr [.jstr "No" none, .jstr "Yes" none]),
         ("outcomePrices", .jarr [.jnum (.fin (3/10)), .jnum (.fin 150)])]

/-- A record with only `outcomePrices=[0.62]` and no outcomes list. -/
def recSinglePrice : JsonVal := .jobj [("outcomePrices", .jarr [.jnum (.fin (62/100))])]

/-- A record whose probability field is 70. -/
def recProb70 : JsonVal := .jobj [("probability", .jnum (.fin 70))]

/-- A record whose `id` is the empty string but whose `market_id` is a
non-empty string. -/
def recEmptyId : JsonVal := .jobj [("id", .jstr "" none), ("market_id", .jstr "abc" none)]

/-- Snapshots for one market: now = 0.70 at the window end, then = 0.55
one window earlier (the spec's delta example). -/
def deltaExampleRows : List SnapRow :=
  [⟨"m", 0, some (11/20)⟩, ⟨"m", 300000, some (7/10)⟩]

/-- The move the engine computes from `deltaExampleRows` for the 5m window. -/
def deltaExampleMove : MoveRow :=
  ⟨"m", "5m", 300000, some (7/10), some (11/20), 3/20⟩

/-- Snapshots with a null-probability point between two numeric ones: the
null point at t = 600000 is the latest point at or before the 5m-window
target (t = 1500000), yet the engine's move takes its "then" from t = 0. -/
def nullMidRows : List SnapRow :=
  [⟨"m", 0, some (2/5)⟩, ⟨"m", 600000, none⟩, ⟨"m", 1800000, some (1/2)⟩]

/-- The null-probability point of `nullMidRows`. -/
def nullMidPoint : SnapRow := ⟨"m", 600000, none⟩

/-- The move the engine computes from `nullMidRows` for the 5m window. -/
def nullMidMove : MoveRow := ⟨"m", "5m", 1800000, some (1/2), some (2/5), 1/10⟩

/-! ## The as-of lookup (claim C1) -/

/-- Ascending order by timestamp, as the snapshot read guarantees. -/
def sortedAscBool : List SnapRow → Bool
  | [] => true
  | [_] => true
  | a :: b :: rest => decide (a.tsMs ≤ b.tsMs) && sortedAscBool (b :: rest)

theorem sortedAscBool_tail {a : SnapRow} {l : List SnapRow}
    (h : sortedAscBool (a :: l) = true) : sortedAscBool l = true := by
  cases l with
  | nil => rfl
  | cons b rest => simp [sortedAscBool] at h; exact h.2

theorem sortedAscBool_head_le {p q : SnapRow} :
    ∀ {rest : List SnapRow}, sortedAscBool (p :: rest) = true → q ∈ rest →
      p.tsMs ≤ q.tsMs := by
  intro rest
  induction rest generalizing p with
  | nil => intro _ hq; cases hq
  | cons b rest ih =>
      intro hs hq
      have hab : p.tsMs ≤ b.tsMs := by simp [sortedAscBool] at hs; exact hs.1
      rcases List.mem_cons.mp hq with h | h
      · subst h; exact hab
      · have := ih (sortedAscBool_tail hs) h; omega

theorem filter_le_eq_nil_of_sorted {t : Int} {p : SnapRow} {rest : List SnapRow}
    (hs : sortedAscBool (p :: rest) = true) (hlt : t < p.tsMs) :
    (p :: rest).filter (fun q => decide (q.tsMs ≤ t)) = [] := by
  rw [List.filter_eq_nil_iff]
  intro q hq
  simp only [decide_eq_true_eq]
  rcases List.mem_cons.mp hq with h | h
  · subst h; omega
  · have := sortedAscBool_head_le hs h; omega

theorem getLast?_cons_eq_of_some {α : Type} {l : List α} {a q : α}
    (h : l.getLast? = some q) : (a :: l).getLast? = some q := by
  cases l with
  | nil => simp at h
  | cons b rest => rwa [List.getLast?_cons_cons]

theorem getLast?_cons_ne_none {α : Type} (x : α) (xs : List α) :
    (x :: xs).getLast? ≠ none := by
  induction xs generalizing x with
  | nil => simp
  | cons y ys ih => rw [List.getLast?_cons_cons]; exact ih y

theorem pickProbAtOrBefore_mem :
    ∀ {pts : List SnapRow} {t : Int} {p : SnapRow},
      pickProbAtOrBefore pts t = some p → p ∈ pts := by
  intro pts t p h
  induction pts with
  | nil => simp [pickProbAtOrBefore] at h
  | cons a rest ih =>
      unfold pickProbAtOrBefore at h
      by_cases hle : a.tsMs ≤ t
      · rw [if_pos hle] at h
        cases hrec : pickProbAtOrBefore rest t with
        | some q =>
            rw [hrec] at h
            cases h
            exact List.mem_cons_of_mem _ (ih hrec)
        | none =>
            rw [hrec] at h
            cases h
            exact List.mem_cons_self _ _
      · rw [if_neg hle] at h; cases h

/-- The forward scan equals "the last point whose timestamp is ≤ the
target" on an ascending series. -/
theorem pickProbAtOrBefore_eq_getLast_filter :
    ∀ (pts : List SnapRow) (t : Int), sortedAscBool pts = true →
      pickProbAtOrBefore pts t = (pts.filter (fun q => decide (q.tsMs ≤ t))).getLast? := by
  intro pts t
  induction pts with
  | nil => intro _; rfl
  | cons p rest ih =>
      intro hs
      unfold pickProbAtOrBefore
      by_cases hle : p.tsMs ≤ t
      · rw [if_pos hle]
        have hrest := ih (sortedAscBool_tail hs)
        have hfil : (p :: rest).filter (fun q => decide (q.tsMs ≤ t)) =
            p :: rest.filter (fun q => decide (q.tsMs ≤ t)) := by
          simp [List.filter, hle]
        rw [hfil]
        cases hrec : pickProbAtOrBefore rest t with
        | some q =>
            rw [hrec] at hrest
            exact (getLast?_cons_eq_of_some hrest.symm).symm
        | none =>
            have h0 : (rest.filter (fun q => decide (q.tsMs ≤ t))).getLast? = none := by
              rw [← hrest, hrec]
            have hnil : rest.filter (fun q => decide (q.tsMs ≤ t)) = [] := by
              cases hf : rest.filter (fun q => decide (q.tsMs ≤ t)) with
              | nil => rfl
              | cons x xs => rw [hf] at h0; exact absurd h0 (getLast?_cons_ne_none x xs)
            rw [hnil]
            rfl
      · rw [if_neg hle]
        rw [filter_le_eq_nil_of_sorted hs (by omega)]
        rfl


/-- C1 (counterexample): the claim's concrete sub-case "a lookup at t=5
returns none" is false on the code: the series has a point at t=0 ≤ t=5,
and `pickProbAtOrBefore` returns it (consistently with the claim's own
general rule, which the example contradicts). -/
theorem pickProbAtOrBefore_t5_counterexample :
    pickProbAtOrBefore asOfExample 300000 = some ⟨"m", 0, some (2/5)⟩ ∧
    pickProbAtOrBefore asOfExample 300000 ≠ none := by
  have h : pickProbAtOrBefore asOfExample 300000 = some ⟨"m", 0, some (2/5)⟩ := rfl
  exact ⟨h, by rw [h]; simp⟩

/-- C1 (amended): on a series ordered ascending by timestamp the as-of
lookup returns exactly the last point whose timestamp is ≤ the target
(`none` when no such point exists); on the example series the lookup at
t=25min returns the t=20min point, at t=30min the t=30min point itself
(boundary inclusive), and at t=5min the t=0min point (not `none`). -/
theorem pickProbAtOrBefore_asOf :
    (∀ (pts : List SnapRow) (t : Int), sortedAscBool pts = true →
        pickProbAtOrBefore pts t =
          (pts.filter (fun q => decide (q.tsMs ≤ t))).getLast?) ∧
    pickProbAtOrBefore asOfExample 1500000 = some ⟨"m", 1200000, some (1/2)⟩ ∧
    pickProbAtOrBefore asOfExample 1800000 = some ⟨"m", 1800000, some (11/20)⟩ ∧
    pickProbAtOrBefore asOfExample 300000 = some ⟨"m", 0, some (2/5)⟩ :=
  ⟨pickProbAtOrBefore_eq_getLast_filter, rfl, rfl, rfl⟩

/-- C1 (witness): the general part of `pickProbAtOrBefore_asOf` applied to
the concrete example series, its sortedness hypothesis discharged. -/
theorem pickProbAtOrBefore_asOf_witness :
    pickProbAtOrBefore asOfExample 1500000 =
      (asOfExample.filter (fun q => decide (q.tsMs ≤ 1500000))).getLast? :=
  pickProbAtOrBefore_asOf.1 asOfExample 1500000 (by decide)

/-! ## The window delta calculator (claims C4, C6, C7) -/

theorem marketMove_eq_some {w id : String} {pts : List SnapRow} {mv : MoveRow}
    (h : marketMove w id pts = some mv) :
    mv.market_id = id ∧ mv.window_key = w ∧
    ∃ latest thenPt, pts.getLast? = some latest ∧
      pickProbAtOrBefore pts (latest.tsMs - windowToMs w) = some thenPt ∧
      mv.ts_end = latest.tsMs ∧ mv.prob_now = latest.prob_yes ∧
      mv.prob_then = thenPt.prob_yes ∧
      mv.delta = latest.prob_yes.getD 0 - thenPt.prob_yes.getD 0 := by
  unfold marketMove at h
  by_cases hlen : pts.length < 2
  · rw [if_pos hlen] at h; cases h
  · rw [if_neg hlen] at h
    cases hlast : pts.getLast? with
    | none => rw [hlast] at h; dsimp only at h; cases h
    | some latest =>
        rw [hlast] at h
        dsimp only at h
        cases hpick : pickProbAtOrBefore pts (latest.tsMs - windowToMs w) with
        | none => rw [hpick] at h; dsimp only at h; cases h
        | some thenPt =>
            rw [hpick] at h
            dsimp only at h
            cases h
            exact ⟨rfl, rfl, latest, thenPt, rfl, hpick, rfl, rfl, rfl, rfl⟩

theorem mem_computeMoves {w : String} {rows : List SnapRow} {mv : MoveRow}
    (h : mv ∈ computeMoves w rows) :
    ∃ id, marketMove w id (pointsFor (numericRows rows) id) = some mv := by
  unfold computeMoves at h
  rcases List.mem_filterMap.mp h with ⟨id, _, hsome⟩
  exact ⟨id, hsome⟩

theorem mem_numericRows {rows : List SnapRow} {r : SnapRow}
    (h : r ∈ numericRows rows) : r ∈ rows ∧ r.prob_yes.isSome := by
  unfold numericRows at h
  have := List.mem_filter.mp h
  exact ⟨this.1, this.2⟩

theorem mem_pointsFor {rows : List SnapRow} {id : String} {r : SnapRow}
    (h : r ∈ pointsFor rows id) : r ∈ rows ∧ r.market_id = id := by
  unfold pointsFor at h
  have := List.mem_filter.mp h
  exact ⟨this.1, of_decide_eq_true this.2⟩

theorem getLast?_mem {α : Type} : ∀ {l : List α} {a : α}, l.getLast? = some a → a ∈ l := by
  intro l
  induction l with
  | nil => intro a h; cases h
  | cons x xs ih =>
      intro a h
      cases xs with
      | nil => cases h; exact List.mem_cons_self _ _
      | cons y ys =>
          rw [List.getLast?_cons_cons] at h
          exact List.mem_cons_of_mem _ (ih h)


/-! ## Normalizer lemmas (claims C2, C3, C8, C10) -/

theorem strToNumber_03 : strToNumber "0.3" = .fin (3/10) := by
  rw [show strToNumber "0.3" =
        JNum.fin ((digitsVal ['0'] : ℚ) + (digitsVal ['3'] : ℚ) / (10:ℚ)^(1:ℕ)) from rfl,
      show digitsVal ['0'] = 0 from by decide, show digitsVal ['3'] = 3 from by decide]
  norm_num

theorem strToNumber_07 : strToNumber "0.7" = .fin (7/10) := by
  rw [show strToNumber "0.7" =
        JNum.fin ((digitsVal ['0'] : ℚ) + (digitsVal ['7'] : ℚ) / (10:ℚ)^(1:ℕ)) from rfl,
      show digitsVal ['0'] = 0 from by decide, show digitsVal ['7'] = 7 from by decide]
  norm_num

theorem clamp01_in_range {x : ℚ} (h0 : 0 ≤ x) (h1 : x ≤ 1) : clamp01 (.fin x) = some x := by
  have hgt : ¬ x > 1 := by linarith
  simp [clamp01, hgt]
  exact h0

theorem clamp01_percent {x : ℚ} (h1 : 1 < x) (h2 : x ≤ 100) :
    clamp01 (.fin x) = some (x / 100) := by
  simp only [clamp01, if_pos h1]
  have hn : ¬ (x / 100 < 0 ∨ x / 100 > 1) := by
    push_neg
    refine ⟨by linarith, by linarith⟩
  rw [if_neg hn]

theorem clamp01_over {x : ℚ} (h : 100 < x) : clamp01 (.fin x) = none := by
  have h1 : x > 1 := by linarith
  simp only [clamp01, if_pos h1]
  have hc : x / 100 < 0 ∨ x / 100 > 1 := Or.inr (by linarith)
  rw [if_pos hc]

theorem clamp01_neg {x : ℚ} (h1 : ¬ x > 1) (h : x < 0) : clamp01 (.fin x) = none := by
  simp only [clamp01, if_neg h1]
  exact if_pos (Or.inl h)

theorem clamp01_mem {n : JNum} {q : ℚ} (h : clamp01 n = some q) : 0 ≤ q ∧ q ≤ 1 := by
  cases n with
  | nonfinite => simp [clamp01] at h
  | fin x =>
      rw [show clamp01 (.fin x) =
            (if (if x > 1 then x / 100 else x) < 0 ∨ (if x > 1 then x / 100 else x) > 1
             then none
             else some (if x > 1 then x / 100 else x)) from rfl] at h
      by_cases hc : (if x > 1 then x / 100 else x) < 0 ∨ (if x > 1 then x / 100 else x) > 1
      · rw [if_pos hc] at h; cases h
      · rw [if_neg hc] at h
        push_neg at hc
        cases h
        exact hc

/-- The engine's second-revision normalizer only ever returns `clamp01`
results (or `none`): the structural fact behind its [0,1] range. -/
theorem scanDirect_shape (m : JsonVal) :
    ∀ ks : List String, scanDirect m ks = none ∨ ∃ n, scanDirect m ks = some (clamp01 n) := by
  intro ks
  induction ks with
  | nil => exact Or.inl rfl
  | cons k rest ih =>
      unfold scanDirect
      cases hget : jGet m k with
      | none => exact ih
      | some v =>
          cases v with
          | jnum n => exact Or.inr ⟨n, rfl⟩
          | jstr s p =>
              dsimp only
              cases hstr : strToNumber s with
              | fin q => exact Or.inr ⟨.fin q, rfl⟩
              | nonfinite => exact ih
          | jnull => exact ih
          | jbool b => exact ih
          | jarr xs => exact ih
          | jobj fs => exact ih

theorem yesIndexPrice_shape (o p : Option (List JsonVal)) :
    yesIndexPrice o p = none ∨ ∃ n, yesIndexPrice o p = some (clamp01 n) := by
  unfold yesIndexPrice
  cases o with
  | none => exact Or.inl rfl
  | some outs =>
      cases p with
      | none => exact Or.inl rfl
      | some pr =>
          dsimp only
          by_cases hlen : outs.length = pr.length
          · rw [if_pos hlen]
            cases hidx : findIndex (fun o => decide (jsToLower (jsToString o) = "yes")) outs with
            | none => exact Or.inl rfl
            | some idx =>
                dsimp only
                cases hnum : toNumberAt pr idx with
                | fin v => exact Or.inr ⟨.fin v, rfl⟩
                | nonfinite => exact Or.inl rfl
          · rw [if_neg hlen]; exact Or.inl rfl

theorem firstPrice_shape (p : Option (List JsonVal)) :
    firstPrice p = none ∨ ∃ n, firstPrice p = clamp01 n := by
  unfold firstPrice
  cases p with
  | none => exact Or.inl rfl
  | some pr =>
      dsimp only
      by_cases hlen : pr.length > 0
      · rw [if_pos hlen]
        cases hnum : toNumberAt pr 0 with
        | fin v => exact Or.inr ⟨.fin v, rfl⟩
        | nonfinite => exact Or.inl rfl
      · rw [if_neg hlen]; exact Or.inl rfl

theorem parseProbPart1_shape (m : JsonVal) :
    parseProbPart1 m = none ∨ ∃ n, parseProbPart1 m = clamp01 n := by
  unfold parseProbPart1
  rcases scanDirect_shape m
      ["probability", "probabilityYes", "pYes", "yesProbability", "yesPrice"] with hs | ⟨n, hs⟩
  · rw [hs]
    dsimp only
    rcases yesIndexPrice_shape (toArray (jGet m "outcomes"))
        (toArray (jCoalesce (jGet m "outcomePrices") (jGet m "outcome_prices"))) with hy | ⟨ny, hy⟩
    · rw [hy]
      exact firstPrice_shape _
    · rw [hy]
      exact Or.inr ⟨ny, rfl⟩
  · rw [hs]
    exact Or.inr ⟨n, rfl⟩


theorem parseProbPart1_recNoYes : parseProbPart1 recNoYes = some (7/10) := by
  simp [parseProbPart1, scanDirect, jGet, recNoYes, List.find?, toArray, jCoalesce,
    yesIndexPrice, findIndex, jsToString, jsToLower, charToLower, toNumberAt, toNumber,
    strToNumber_07,
    clamp01_in_range (by norm_num : (0:ℚ) ≤ 7/10) (by norm_num : (7:ℚ)/10 ≤ 1)]

theorem parseProbPart1_recSinglePrice : parseProbPart1 recSinglePrice = some (62/100) := by
  simp [parseProbPart1, scanDirect, jGet, recSinglePrice, List.find?, toArray, jCoalesce,
    yesIndexPrice, firstPrice, toNumberAt, toNumber,
    clamp01_in_range (by norm_num : (0:ℚ) ≤ 62/100) (by norm_num : (62:ℚ)/100 ≤ 1)]

theorem parseProbPart1_recProb70 : parseProbPart1 recProb70 = some (7/10) := by
  simp [parseProbPart1, scanDirect, jGet, recProb70, List.find?,
    clamp01_percent (by norm_num : (1:ℚ) < 70) (by norm_num : (70:ℚ) ≤ 100)]
  norm_num

/-- On a matched "yes" index whose finite price is clamp-rejected, the
second revision returns unknown terminally — the `return clamp01(v)` in
the source ends the chain without trying the first-price fallback. -/
theorem parseProbPart1_recYesPrice150 : parseProbPart1 recYesPrice150 = none := by
  simp [parseProbPart1, scanDirect, jGet, recYesPrice150, List.find?, toArray, jCoalesce,
    yesIndexPrice, findIndex, jsToString, jsToLower, charToLower, toNumberAt, toNumber,
    clamp01_over (by norm_num : (100:ℚ) < 150)]

/-- The fallback the source never reaches on `recYesPrice150` would have
produced 0.3: evidence that the yes-index return is terminal. -/
theorem firstPrice_recYesPrice150 :
    firstPrice (toArray (jCoalesce (jGet recYesPrice150 "outcomePrices")
      (jGet recYesPrice150 "outcome_prices"))) = some (3/10) := by
  simp [firstPrice, jGet, recYesPrice150, List.find?, toArray, jCoalesce, toNumberAt, toNumber,
    clamp01_in_range (by norm_num : (0:ℚ) ≤ 3/10) (by norm_num : (3:ℚ)/10 ≤ 1)]

theorem parseProbScripts_recNoYes : parseProbScripts recNoYes = some (.fin (3/10)) := by
  simp [parseProbScripts, jGet, recNoYes, List.find?, toNumberAt, toNumber, strToNumber_03]

theorem parseProbScripts_recNoYesStr : parseProbScripts recNoYesStr = some (.fin (3/10)) := by
  simp [parseProbScripts, jGet, recNoYesStr, List.find?, toNumberAt, toNumber, strToNumber_03]

theorem parseProbScripts_recSinglePrice : parseProbScripts recSinglePrice = none := by
  simp [parseProbScripts, jGet, recSinglePrice, List.find?]

theorem parseProbScripts_recProb70 : parseProbScripts recProb70 = some (.fin 70) := by
  simp [parseProbScripts, jGet, recProb70, List.find?]

/-- C2 (counterexample): on `scripts/engine_run.mjs` the claim fails: for
outcomes=["No","Yes"], outcomePrices=["0.3","0.7"] its `parseProb` returns
the first price 0.3 (the array branch precedes the yes-index branch, which
is reachable only for string-encoded collections), not 0.7; and a record
with only `outcomePrices=[0.62]` yields unknown (the array branch requires
length ≥ 2 and no other branch applies), not 0.62. -/
theorem parseProb_firstPrice_counterexample :
    parseProbScripts recNoYes = some (.fin (3/10)) ∧
    parseProbScripts recNoYesStr = some (.fin (3/10)) ∧
    parseProbScripts recNoYes ≠ some (.fin (7/10)) ∧
    parseProbScripts recSinglePrice = none := by
  refine ⟨parseProbScripts_recNoYes, parseProbScripts_recNoYesStr, ?_,
    parseProbScripts_recSinglePrice⟩
  rw [parseProbScripts_recNoYes]
  intro hEq
  have h310 := JNum.fin.inj (Option.some.inj hEq)
  norm_num at h310

/-- C2 (amended): the claimed behaviour is that of the second revision's
`parseProb`: it index-matches the case-insensitive "yes" outcome before the
first-price fallback (0.7 for the No/Yes record, 0.62 via the fallback for
the single-price record), and a matched yes index with a finite price ends
the chain terminally — on `outcomePrices=[0.3, 150]` it returns unknown
rather than falling back to the first price 0.3 the fallback would yield.
The `scripts/engine_run.mjs` revision instead returns the first price 0.3
for the No/Yes record and unknown for the single-price record. -/
theorem parseProb_yesIndex_amended :
    parseProbPart1 recNoYes = some (7/10) ∧
    parseProbPart1 recSinglePrice = some (62/100) ∧
    parseProbPart1 recYesPrice150 = none ∧
    firstPrice (toArray (jCoalesce (jGet recYesPrice150 "outcomePrices")
      (jGet recYesPrice150 "outcome_prices"))) = some (3/10) ∧
    parseProbScripts recNoYes = some (.fin (3/10)) ∧
    parseProbScripts recSinglePrice = none :=
  ⟨parseProbPart1_recNoYes, parseProbPart1_recSinglePrice,
   parseProbPart1_recYesPrice150, firstPrice_recYesPrice150,
   parseProbScripts_recNoYes, parseProbScripts_recSinglePrice⟩

/-- C3 (counterexample): the `scripts/engine_run.mjs` revision's
`parseProb` has no percentage adjustment at all: a record whose
probability field is 70 normalizes to 70, not 0.70. -/
theorem parseProb_noScaling_counterexample :
    parseProbScripts recProb70 = some (.fin 70) ∧
    parseProbScripts recProb70 ≠ some (.fin (7/10)) := by
  refine ⟨parseProbScripts_recProb70, ?_⟩
  rw [parseProbScripts_recProb70]
  intro hEq
  have h70 := JNum.fin.inj (Option.some.inj hEq)
  norm_num at h70

/-- C3 (amended): in the second revision every accepted numeric passes
through `clamp01`: a value above 1 is divided by 100 (yielding `none`,
never a clamp, when the quotient is still outside [0,1]); a value ≤ 1 is
accepted only when nonnegative; every accepted value lands in [0,1]; a
probability field of 70 normalizes to 0.70 there; and a matched yes price
of 150 (1.5 after division, still outside [0,1]) makes the whole
normalizer return unknown.  The `scripts/engine_run.mjs` revision performs
no adjustment. -/
theorem clamp01_percentage_normalization :
    (∀ x : ℚ, 1 < x → clamp01 (.fin x) = if x ≤ 100 then some (x / 100) else none) ∧
    (∀ x : ℚ, x ≤ 1 → clamp01 (.fin x) = if 0 ≤ x then some x else none) ∧
    (∀ (n : JNum) (q : ℚ), clamp01 n = some q → 0 ≤ q ∧ q ≤ 1) ∧
    (∀ m : JsonVal, parseProbPart1 m = none ∨ ∃ n, parseProbPart1 m = clamp01 n) ∧
    parseProbPart1 recProb70 = some (7/10) ∧
    parseProbPart1 recYesPrice150 = none := by
  refine ⟨?_, ?_, fun n q h => clamp01_mem h, parseProbPart1_shape, parseProbPart1_recProb70,
    parseProbPart1_recYesPrice150⟩
  · intro x h1
    by_cases h2 : x ≤ 100
    · rw [if_pos h2]
      exact clamp01_percent h1 h2
    · rw [if_neg h2]
      exact clamp01_over (by linarith)
  · intro x h1
    by_cases h0 : 0 ≤ x
    · rw [if_pos h0]
      exact clamp01_in_range h0 h1
    · rw [if_neg h0]
      exact clamp01_neg (by linarith) (by linarith)

/-- C3 (witness): the percentage branch of the amended claim applied at
the concrete value 70. -/
theorem clamp01_percentage_normalization_witness :
    clamp01 (.fin 70) = if (70:ℚ) ≤ 100 then some (70 / 100) else none :=
  clamp01_percentage_normalization.1 70 (by norm_num)

/-- C8 (counterexample): the `scripts/engine_run.mjs` revision's
`parseProb` is total but does not keep its result in [0,1]: on a record
whose probability field is 70 it returns 70. -/
theorem parseProb_range_counterexample :
    ¬ (∀ m : JsonVal, parseProbScripts m = none ∨
        ∃ q : ℚ, parseProbScripts m = some (.fin q) ∧ 0 ≤ q ∧ q ≤ 1) := by
  intro h
  rcases h recProb70 with h0 | ⟨q, hq, _, hq1⟩
  · rw [parseProbScripts_recProb70] at h0
    cases h0
  · rw [parseProbScripts_recProb70] at hq
    have : (70:ℚ) = q := by
      have := Option.some.inj hq
      exact JNum.fin.inj this
    rw [← this] at hq1
    norm_num at hq1

/-- C8 (amended): the second revision's `parseProb` is a total function of
the record (the embedding is total by construction, mirroring that the
source catches its only throwing operation, `JSON.parse`) and returns
either unknown or a probability in [0,1]; the `scripts/engine_run.mjs`
revision is also total but may return values outside [0,1]. -/
theorem parseProbPart1_total_in_range :
    ∀ m : JsonVal, parseProbPart1 m = none ∨
      ∃ q : ℚ, parseProbPart1 m = some q ∧ 0 ≤ q ∧ q ≤ 1 := by
  intro m
  rcases parseProbPart1_shape m with h | ⟨n, h⟩
  · exact Or.inl h
  · cases hc : clamp01 n with
    | none => rw [hc] at h; exact Or.inl h
    | some q =>
        rw [hc] at h
        rcases clamp01_mem hc with ⟨h0, h1⟩
        exact Or.inr ⟨q, h, h0, h1⟩

/-- C10 (counterexample): the two revisions' `parseProb` are not
extensionally equivalent: on the record `{probability: 70}` the
`scripts/engine_run.mjs` one returns 70 while the other returns 0.70. -/
theorem parseProb_equivalence_counterexample :
    ¬ (∀ m : JsonVal, parseProbScripts m = (parseProbPart1 m).map JNum.fin) := by
  intro h
  have hm := h recProb70
  rw [parseProbScripts_recProb70, parseProbPart1_recProb70, Option.map_some'] at hm
  have h70 := JNum.fin.inj (Option.some.inj hm)
  norm_num at h70

/-- C10 (amended): the two revisions agree on neither value nor shape at
`{probability: 70}`: 70 against 0.70. -/
theorem parseProb_revisions_differ :
    parseProbScripts recProb70 = some (.fin 70) ∧
    parseProbPart1 recProb70 = some (7/10) ∧
    parseProbScripts recProb70 ≠ (parseProbPart1 recProb70).map JNum.fin := by
  refine ⟨parseProbScripts_recProb70, parseProbPart1_recProb70, ?_⟩
  rw [parseProbScripts_recProb70, parseProbPart1_recProb70]
  intro hEq
  rw [Option.map_some'] at hEq
  have h70 := JNum.fin.inj (Option.some.inj hEq)
  norm_num at h70


theorem computeMoves_deltaExample : computeMoves "5m" deltaExampleRows = [deltaExampleMove] := by
  simp [computeMoves, numericRows, marketIdsInOrder, pointsFor, marketMove,
    pickProbAtOrBefore, windowToMs, deltaExampleRows, deltaExampleMove, List.filter]
  norm_num

theorem computeMoves_nullMid : computeMoves "5m" nullMidRows = [nullMidMove] := by
  simp [computeMoves, numericRows, marketIdsInOrder, pointsFor, marketMove,
    pickProbAtOrBefore, windowToMs, nullMidRows, nullMidMove, List.filter]
  norm_num

/-- C4: every move the engine emits carries numeric now/then probabilities
and stores their exact signed difference, unrounded; and whenever the
snapshot probabilities respect the data model's [0,1] invariant, the delta
lies in [−1, 1]. -/
theorem computeMoves_delta_exact_bounded :
    ∀ (w : String) (rows : List SnapRow), ∀ mv ∈ computeMoves w rows,
      (∃ pn pt : ℚ, mv.prob_now = some pn ∧ mv.prob_then = some pt ∧ mv.delta = pn - pt) ∧
      ((∀ r ∈ rows, ∀ q : ℚ, r.prob_yes = some q → 0 ≤ q ∧ q ≤ 1) →
        -1 ≤ mv.delta ∧ mv.delta ≤ 1) := by
  intro w rows mv hmv
  rcases mem_computeMoves hmv with ⟨id, hmm⟩
  rcases marketMove_eq_some hmm with
    ⟨_, _, latest, thenPt, hlast, hpick, _, hnow, hthen, hdelta⟩
  have hlatestMem : latest ∈ pointsFor (numericRows rows) id := getLast?_mem hlast
  have hthenMem : thenPt ∈ pointsFor (numericRows rows) id := pickProbAtOrBefore_mem hpick
  have hlatestNum := (mem_numericRows (mem_pointsFor hlatestMem).1).2
  have hthenNum := (mem_numericRows (mem_pointsFor hthenMem).1).2
  rcases Option.isSome_iff_exists.mp hlatestNum with ⟨pn, hpn⟩
  rcases Option.isSome_iff_exists.mp hthenNum with ⟨pt, hpt⟩
  have hdelta' : mv.delta = pn - pt := by
    rw [hdelta, hpn, hpt]
    simp
  refine ⟨⟨pn, pt, by rw [hnow, hpn], by rw [hthen, hpt], hdelta'⟩, ?_⟩
  intro hrange
  have hlatestRow := (mem_numericRows (mem_pointsFor hlatestMem).1).1
  have hthenRow := (mem_numericRows (mem_pointsFor hthenMem).1).1
  rcases hrange latest hlatestRow pn hpn with ⟨h1, h2⟩
  rcases hrange thenPt hthenRow pt hpt with ⟨h3, h4⟩
  rw [hdelta']
  constructor <;> linarith

/-- C4 (witness): the claim's example: now = 0.70 and then = 0.55 one 5m
window earlier yield a stored delta of exactly +0.15, inside [−1, 1]. -/
theorem computeMoves_delta_witness :
    deltaExampleMove.delta = 3/20 ∧
    -1 ≤ deltaExampleMove.delta ∧ deltaExampleMove.delta ≤ 1 := by
  have hmem : deltaExampleMove ∈ computeMoves "5m" deltaExampleRows := by
    rw [computeMoves_deltaExample]
    exact List.mem_singleton.mpr rfl
  have hrange : ∀ r ∈ deltaExampleRows, ∀ q : ℚ, r.prob_yes = some q → 0 ≤ q ∧ q ≤ 1 := by
    intro r hr q hq
    rcases List.mem_cons.mp hr with h | h
    · subst h
      have : (11:ℚ)/20 = q := Option.some.inj hq
      rw [← this]
      norm_num
    · rcases List.mem_cons.mp h with h2 | h2
      · subst h2
        have : (7:ℚ)/10 = q := Option.some.inj hq
        rw [← this]
        norm_num
      · cases h2
  refine ⟨by norm_num [deltaExampleMove], ?_⟩
  exact (computeMoves_delta_exact_bounded "5m" deltaExampleRows deltaExampleMove hmem).2 hrange

/-- The single-snapshot market used by the C6 witness. -/
def singleSnapRows : List SnapRow := [⟨"m", 0, some (1/2)⟩]

/-- C6: a market with fewer than two (numeric) points, or whose as-of
lookup at (end − window) finds no point, contributes no move for that
window; in particular a market with exactly one snapshot row contributes
no move.  (No run failure is representable: the embedding is a total
function into move lists.) -/
theorem computeMoves_insufficient_history :
    (∀ (w id : String) (pts : List SnapRow), pts.length < 2 → marketMove w id pts = none) ∧
    (∀ (w id : String) (pts : List SnapRow) (latest : SnapRow), pts.getLast? = some latest →
      pickProbAtOrBefore pts (latest.tsMs - windowToMs w) = none →
      marketMove w id pts = none) ∧
    (∀ (rows : List SnapRow) (w id : String),
      marketMove w id (pointsFor (numericRows rows) id) = none →
      ∀ mv ∈ computeMoves w rows, mv.market_id ≠ id) ∧
    (∀ (rows : List SnapRow) (w id : String),
      (rows.filter (fun r => decide (r.market_id = id))).length = 1 →
      ∀ mv ∈ computeMoves w rows, mv.market_id ≠ id) := by
  have h1 : ∀ (w id : String) (pts : List SnapRow), pts.length < 2 →
      marketMove w id pts = none := by
    intro w id pts hlen
    unfold marketMove
    rw [if_pos hlen]
  have h2 : ∀ (w id : String) (pts : List SnapRow) (latest : SnapRow),
      pts.getLast? = some latest →
      pickProbAtOrBefore pts (latest.tsMs - windowToMs w) = none →
      marketMove w id pts = none := by
    intro w id pts latest hlast hpick
    unfold marketMove
    by_cases hlen : pts.length < 2
    · rw [if_pos hlen]
    · rw [if_neg hlen, hlast]
      dsimp only
      rw [hpick]
  have h3 : ∀ (rows : List SnapRow) (w id : String),
      marketMove w id (pointsFor (numericRows rows) id) = none →
      ∀ mv ∈ computeMoves w rows, mv.market_id ≠ id := by
    intro rows w id hnone mv hmv hid
    rcases mem_computeMoves hmv with ⟨id2, hmm⟩
    have : mv.market_id = id2 := (marketMove_eq_some hmm).1
    rw [hid] at this
    rw [← this] at hmm
    rw [hnone] at hmm
    cases hmm
  refine ⟨h1, h2, h3, ?_⟩
  intro rows w id hcount
  apply h3
  apply h1
  have hsub : pointsFor (numericRows rows) id =
      numericRows (rows.filter (fun r => decide (r.market_id = id))) := by
    unfold pointsFor numericRows
    rw [List.filter_comm]
  rw [hsub]
  have hle := List.length_filter_le (fun r => r.prob_yes.isSome)
    (rows.filter (fun r => decide (r.market_id = id)))
  unfold numericRows
  omega

/-- C6 (witness): a market with exactly one snapshot produces zero move
rows for the 5m window. -/
theorem computeMoves_insufficient_history_witness :
    (singleSnapRows.filter (fun r => decide (r.market_id = "m"))).length = 1 ∧
    (∀ mv ∈ computeMoves "5m" singleSnapRows, mv.market_id ≠ "m") ∧
    computeMoves "5m" singleSnapRows = [] :=
  ⟨rfl, computeMoves_insufficient_history.2.2.2 singleSnapRows "5m" "m" rfl, rfl⟩

/-- C7 (counterexample): null-probability snapshots do not take part in
the as-of lookup.  On `nullMidRows` the engine emits a move whose "then"
probability is 0.40 (the point at t=0), even though the latest point at or
before the lookup target among all snapshots is the null point at
t=600000 — its timestamp did not count. -/
theorem computeMoves_nullLookup_counterexample :
    ¬ (∀ (rows : List SnapRow) (w : String) (mv : MoveRow) (p : SnapRow),
        mv ∈ computeMoves w rows →
        pickProbAtOrBefore (pointsFor rows mv.market_id) (mv.ts_end - windowToMs w) = some p →
        mv.prob_then = p.prob_yes) := by
  intro h
  have hm : nullMidMove ∈ computeMoves "5m" nullMidRows := by
    rw [computeMoves_nullMid]
    exact List.mem_singleton.mpr rfl
  have hp : pickProbAtOrBefore (pointsFor nullMidRows nullMidMove.market_id)
      (nullMidMove.ts_end - windowToMs "5m") = some nullMidPoint := rfl
  have hthen := h nullMidRows "5m" nullMidMove nullMidPoint hm hp
  cases hthen

/-- C7 (amended): `computeMoves` filters null-probability rows away before
grouping, so the as-of lookup runs over numeric points only: every emitted
move's "then" probability is the (numeric) probability of the latest
*numeric* point at or before (end − window). -/
theorem computeMoves_then_from_numeric :
    ∀ (rows : List SnapRow) (w : String), ∀ mv ∈ computeMoves w rows,
      ∃ p : SnapRow,
        pickProbAtOrBefore (pointsFor (numericRows rows) mv.market_id)
          (mv.ts_end - windowToMs w) = some p ∧
        mv.prob_then = p.prob_yes ∧ p.prob_yes.isSome := by
  intro rows w mv hmv
  rcases mem_computeMoves hmv with ⟨id, hmm⟩
  rcases marketMove_eq_some hmm with
    ⟨hid, _, latest, thenPt, _, hpick, hts, _, hthen, _⟩
  refine ⟨thenPt, ?_, hthen, ?_⟩
  · rw [hid, hts]
    exact hpick
  · have hthenMem : thenPt ∈ pointsFor (numericRows rows) id := pickProbAtOrBefore_mem hpick
    exact (mem_numericRows (mem_pointsFor hthenMem).1).2

/-- C7 (witness): the amended claim applied to the concrete `nullMidRows`
run: the engine's "then" point is the numeric point at t=0. -/
theorem computeMoves_then_from_numeric_witness :
    ∃ p : SnapRow,
      pickProbAtOrBefore (pointsFor (numericRows nullMidRows) nullMidMove.market_id)
        (nullMidMove.ts_end - windowToMs "5m") = some p ∧
      nullMidMove.prob_then = p.prob_yes ∧ p.prob_yes.isSome :=
  computeMoves_then_from_numeric nullMidRows "5m" nullMidMove
    (by rw [computeMoves_nullMid]; exact List.mem_singleton.mpr rfl)


/-! ## The keyed-upsert store (claims C5, C9) -/

/-- Keys of a row list. -/
def keysOf {K V : Type} (s : List (K × V)) : List K :=
  s.map Prod.fst

section UpsertLemmas

variable {K V : Type} [DecidableEq K]

theorem keysOf_upsertRow_mem {s : List (K × V)} {r : K × V} (h : r.1 ∈ keysOf s) :
    keysOf (upsertRow s r) = keysOf s := by
  unfold upsertRow
  rw [if_pos]
  · unfold keysOf
    rw [List.map_map]
    apply List.map_congr_left
    intro p _
    by_cases hpk : p.1 = r.1
    · simp [Function.comp, hpk]
    · simp [Function.comp, hpk]
  · rcases List.mem_map.mp h with ⟨p, hp, hpk⟩
    exact List.any_eq_true.mpr ⟨p, hp, by simp [hpk]⟩

theorem keysOf_upsertRow_notMem {s : List (K × V)} {r : K × V} (h : ¬ r.1 ∈ keysOf s) :
    keysOf (upsertRow s r) = keysOf s ++ [r.1] := by
  unfold upsertRow
  rw [if_neg]
  · unfold keysOf
    rw [List.map_append]
    rfl
  · intro hany
    rcases List.any_eq_true.mp hany with ⟨p, hp, hpk⟩
    exact h (List.mem_map.mpr ⟨p, hp, of_decide_eq_true hpk⟩)

theorem nodup_keysOf_upsertRow {s : List (K × V)} {r : K × V} (h : (keysOf s).Nodup) :
    (keysOf (upsertRow s r)).Nodup := by
  by_cases hmem : r.1 ∈ keysOf s
  · rw [keysOf_upsertRow_mem hmem]
    exact h
  · rw [keysOf_upsertRow_notMem hmem]
    rw [List.nodup_append]
    refine ⟨h, List.nodup_singleton _, ?_⟩
    intro a ha hcontra
    rw [List.mem_singleton.mp hcontra] at ha
    exact hmem ha

theorem nodup_keysOf_upsertRows {rows : List (K × V)} :
    ∀ {s : List (K × V)}, (keysOf s).Nodup → (keysOf (upsertRows s rows)).Nodup := by
  induction rows with
  | nil => intro s h; exact h
  | cons r rest ih => intro s h; exact ih (nodup_keysOf_upsertRow h)

theorem mem_upsertRow_self (s : List (K × V)) (r : K × V) : r ∈ upsertRow s r := by
  unfold upsertRow
  by_cases hany : s.any (fun p => decide (p.1 = r.1)) = true
  · rw [if_pos hany]
    rcases List.any_eq_true.mp hany with ⟨p, hp, hpk⟩
    refine List.mem_map.mpr ⟨p, hp, ?_⟩
    rw [if_pos (of_decide_eq_true hpk)]
  · rw [if_neg hany]
    exact List.mem_append_right s (List.mem_singleton.mpr rfl)

theorem mem_upsertRow_preserve {s : List (K × V)} {p : K × V} (r : K × V)
    (hp : p ∈ s) (hne : p.1 ≠ r.1) : p ∈ upsertRow s r := by
  unfold upsertRow
  by_cases hany : s.any (fun q => decide (q.1 = r.1)) = true
  · rw [if_pos hany]
    have : (if p.1 = r.1 then r else p) = p := if_neg hne
    rw [← this]
    exact List.mem_map_of_mem _ hp
  · rw [if_neg hany]
    exact List.mem_append_left _ hp

theorem mem_upsertRows_preserve {rows : List (K × V)} :
    ∀ {s : List (K × V)} {p : K × V}, p ∈ s → ¬ p.1 ∈ keysOf rows →
      p ∈ upsertRows s rows := by
  induction rows with
  | nil => intro s p hp _; exact hp
  | cons r rest ih =>
      intro s p hp hk
      have hne : p.1 ≠ r.1 := fun h => hk (by rw [h]; exact List.mem_cons_self _ _)
      have hk2 : ¬ p.1 ∈ keysOf rest := fun h => hk (List.mem_cons_of_mem _ h)
      exact ih (mem_upsertRow_preserve r hp hne) hk2

theorem mem_upsertRows_of_mem {rows : List (K × V)} :
    ∀ {s : List (K × V)} {r : K × V}, (keysOf rows).Nodup → r ∈ rows →
      r ∈ upsertRows s rows := by
  induction rows with
  | nil => intro s r _ hr; cases hr
  | cons a rest ih =>
      intro s r hnd hr
      have hnd2 : (keysOf rest).Nodup := (List.nodup_cons.mp hnd).2
      have hak : ¬ a.1 ∈ keysOf rest := (List.nodup_cons.mp hnd).1
      rcases List.mem_cons.mp hr with h | h
      · subst h
        show r ∈ upsertRows (upsertRow s r) rest
        exact mem_upsertRows_preserve (mem_upsertRow_self s r) hak
      · exact ih hnd2 h

theorem keysOf_nodup_value_unique {T : List (K × V)} (hnd : (keysOf T).Nodup)
    {k : K} {v w : V} (hv : (k, v) ∈ T) (hw : (k, w) ∈ T) : v = w := by
  induction T with
  | nil => cases hv
  | cons p rest ih =>
      have hpk : ¬ p.1 ∈ keysOf rest := (List.nodup_cons.mp hnd).1
      have hnd2 : (keysOf rest).Nodup := (List.nodup_cons.mp hnd).2
      rcases List.mem_cons.mp hv with h1 | h1 <;> rcases List.mem_cons.mp hw with h2 | h2
      · rw [← h1] at h2
        exact (congrArg Prod.snd h2).symm
      · exfalso
        apply hpk
        rw [← h1]
        exact List.mem_map.mpr ⟨(k, w), h2, rfl⟩
      · exfalso
        apply hpk
        rw [← h2]
        exact List.mem_map.mpr ⟨(k, v), h1, rfl⟩
      · exact ih hnd2 h1 h2

theorem upsertRow_mem_id {T : List (K × V)} {r : K × V}
    (hnd : (keysOf T).Nodup) (hr : r ∈ T) : upsertRow T r = T := by
  unfold upsertRow
  rw [if_pos (List.any_eq_true.mpr ⟨r, hr, by simp⟩)]
  have hmap : ∀ p ∈ T, (if p.1 = r.1 then r else p) = p := by
    intro p hp
    by_cases hpk : p.1 = r.1
    · rw [if_pos hpk]
      have hp2 : (r.1, p.2) ∈ T := by
        rw [← hpk]
        exact hp
      have hr2 : (r.1, r.2) ∈ T := hr
      have hv : p.2 = r.2 := keysOf_nodup_value_unique hnd hp2 hr2
      calc r = (r.1, r.2) := rfl
        _ = (p.1, p.2) := by rw [hpk, hv]
        _ = p := rfl
    · exact if_neg hpk
  calc T.map (fun p => if p.1 = r.1 then r else p) = T.map id :=
        List.map_congr_left hmap
    _ = T := List.map_id T

theorem upsertRows_fix {rows : List (K × V)} :
    ∀ {T : List (K × V)}, (∀ r ∈ rows, upsertRow T r = T) → upsertRows T rows = T := by
  induction rows with
  | nil => intro T _; rfl
  | cons a rest ih =>
      intro T h
      have ha : upsertRow T a = T := h a (List.mem_cons_self _ _)
      show upsertRows (upsertRow T a) rest = T
      rw [ha]
      exact ih (fun r hr => h r (List.mem_cons_of_mem _ hr))

/-- Replaying an identical batch over a store with unique keys is the
identity: the core of the engine's idempotence. -/
theorem upsertRows_idem {s rows : List (K × V)}
    (hs : (keysOf s).Nodup) (hrows : (keysOf rows).Nodup) :
    upsertRows (upsertRows s rows) rows = upsertRows s rows := by
  have hndT : (keysOf (upsertRows s rows)).Nodup := nodup_keysOf_upsertRows hs
  apply upsertRows_fix
  intro r hr
  exact upsertRow_mem_id hndT (mem_upsertRows_of_mem hrows hr)

end UpsertLemmas


/-- The ingestion loop is exactly "skip empty-id records, emit one market
row and one snapshot row for the rest". -/
theorem ingestRows_eq (ts : Int) :
    ∀ ms : List JsonVal,
      ingestRows ts ms =
        ((ms.filter (fun m => decide (¬ deriveId m = ""))).map (marketRowOf ts),
         (ms.filter (fun m => decide (¬ deriveId m = ""))).map (snapshotRowOf ts)) := by
  intro ms
  induction ms with
  | nil => rfl
  | cons m rest ih =>
      show (let p := ingestRows ts rest
            if deriveId m = "" then (p.1, p.2)
            else (marketRowOf ts m :: p.1, snapshotRowOf ts m :: p.2)) = _
      rw [ih]
      by_cases h : deriveId m = ""
      · have hd : decide (¬ deriveId m = "") = false := by simp [h]
        simp [List.filter_cons, hd, h]
      · have hd : decide (¬ deriveId m = "") = true := by simp [h]
        simp [List.filter_cons, hd, h]

theorem marketIdsInOrder_aux_nodup (rows : List SnapRow) :
    ∀ acc : List String, acc.Nodup →
      (rows.foldl (fun acc r => if r.market_id ∈ acc then acc else acc ++ [r.market_id])
        acc).Nodup := by
  induction rows with
  | nil => intro acc h; exact h
  | cons r rest ih =>
      intro acc h
      by_cases hmem : r.market_id ∈ acc
      · show (rest.foldl _ (if r.market_id ∈ acc then acc else acc ++ [r.market_id])).Nodup
        rw [if_pos hmem]
        exact ih acc h
      · show (rest.foldl _ (if r.market_id ∈ acc then acc else acc ++ [r.market_id])).Nodup
        rw [if_neg hmem]
        apply ih
        rw [List.nodup_append]
        refine ⟨h, List.nodup_singleton _, ?_⟩
        intro a ha hcontra
        rw [List.mem_singleton.mp hcontra] at ha
        exact hmem ha

theorem marketIdsInOrder_nodup (rows : List SnapRow) : (marketIdsInOrder rows).Nodup :=
  marketIdsInOrder_aux_nodup rows [] List.nodup_nil

theorem filterMap_marketMove_ids_nodup (w : String) (nrows : List SnapRow) :
    ∀ ids : List String, ids.Nodup →
      ((ids.filterMap (fun id => marketMove w id (pointsFor nrows id))).map
        (fun mv => mv.market_id)).Nodup := by
  intro ids
  induction ids with
  | nil => intro _; simp
  | cons id rest ih =>
      intro hnd
      have hidr : ¬ id ∈ rest := (List.nodup_cons.mp hnd).1
      have hnd2 : rest.Nodup := (List.nodup_cons.mp hnd).2
      rw [List.filterMap_cons]
      cases h : marketMove w id (pointsFor nrows id) with
      | none => exact ih hnd2
      | some mv =>
          rw [List.map_cons, List.nodup_cons]
          refine ⟨?_, ih hnd2⟩
          intro hmem
          rcases List.mem_map.mp hmem with ⟨mv2, hmv2, hid2⟩
          rcases List.mem_filterMap.mp hmv2 with ⟨id2, hid2mem, hmm2⟩
          have e1 : mv.market_id = id := (marketMove_eq_some h).1
          have e2 : mv2.market_id = id2 := (marketMove_eq_some hmm2).1
          rw [e2, e1] at hid2
          rw [hid2] at hid2mem
          exact hidr hid2mem

theorem computeMoves_ids_nodup (w : String) (rows : List SnapRow) :
    ((computeMoves w rows).map (fun mv => mv.market_id)).Nodup := by
  unfold computeMoves
  exact filterMap_marketMove_ids_nodup w (numericRows rows) _
    (marketIdsInOrder_nodup (numericRows rows))


/-- C5: ingestion and move-writing are idempotent.  Running ingestion a
second time with the same upstream records and the same run timestamp
rebuilds the identical row batches and, because every write is a keyed
upsert, leaves both the markets and the snapshots tables unchanged (so in
particular the row counts are unchanged and values identical); re-running
one window's move computation against the unchanged snapshot table leaves
the moves table unchanged.  The uniqueness hypotheses are the tables' key
invariants plus distinctness of the ingested ids (the fetch step
deduplicates ids before ingestion). -/
theorem engine_idempotent :
    (∀ (db : DB) (ms : List JsonVal) (ts : Int),
      (keysOf db.markets).Nodup →
      (keysOf db.snapshots).Nodup →
      ((ms.filter (fun m => decide (¬ deriveId m = ""))).map deriveId).Nodup →
      ingestPolymarket (ingestPolymarket db ms ts) ms ts = ingestPolymarket db ms ts) ∧
    (∀ (db : DB) (w : String) (since : Int),
      (keysOf db.moves).Nodup →
      computeMovesDb w since (computeMovesDb w since db) = computeMovesDb w since db) := by
  constructor
  · intro db ms ts h1 h2 h3
    have hkm : keysOf ((ingestRows ts ms).1.map (fun r => (r.market_id, r))) =
        (ms.filter (fun m => decide (¬ deriveId m = ""))).map deriveId := by
      rw [ingestRows_eq]
      unfold keysOf
      rw [List.map_map, List.map_map]
      rfl
    have hks : keysOf ((ingestRows ts ms).2.map (fun r => ((r.market_id, r.tsMs), r))) =
        ((ms.filter (fun m => decide (¬ deriveId m = ""))).map deriveId).map
          (fun id => (id, ts)) := by
      rw [ingestRows_eq]
      unfold keysOf
      rw [List.map_map, List.map_map, List.map_map]
      rfl
    have hBm : (keysOf ((ingestRows ts ms).1.map (fun r => (r.market_id, r)))).Nodup := by
      rw [hkm]
      exact h3
    have hBs : (keysOf ((ingestRows ts ms).2.map (fun r => ((r.market_id, r.tsMs), r)))).Nodup := by
      rw [hks]
      refine List.Nodup.map ?_ h3
      intro a b hab
      exact congrArg Prod.fst hab
    show DB.mk _ _ _ = DB.mk _ _ _
    have e1 := upsertRows_idem h1 hBm
    have e2 := upsertRows_idem h2 hBs
    simp only [ingestPolymarket] at e1 e2 ⊢
    rw [e1, e2]
  · intro db w since h3
    have hB : (keysOf ((computeMoves w (readSnapshots db since)).map
        (fun r => ((r.market_id, r.window_key, r.ts_end), r)))).Nodup := by
      apply List.Nodup.of_map Prod.fst
      unfold keysOf
      rw [List.map_map, List.map_map]
      exact computeMoves_ids_nodup w (readSnapshots db since)
    show DB.mk _ _ _ = DB.mk _ _ _
    have e := upsertRows_idem h3 hB
    simp only [computeMovesDb, readSnapshots] at e ⊢
    rw [e]

/-- An upstream record with a usable id, for the C5 witness. -/
def recSimpleMarket : JsonVal :=
  .jobj [("id", .jstr "mkt1" none), ("probability", .jnum (.fin (1/2)))]

/-- The empty database, for the C5 witness. -/
def emptyDb : DB := ⟨[], [], []⟩

/-- C5 (witness): both idempotence statements applied to a concrete
one-record ingestion into the empty database and a concrete window run,
their key-uniqueness hypotheses discharged. -/
theorem engine_idempotent_witness :
    ingestPolymarket (ingestPolymarket emptyDb [recSimpleMarket] 0) [recSimpleMarket] 0 =
      ingestPolymarket emptyDb [recSimpleMarket] 0 ∧
    computeMovesDb "5m" 0 (computeMovesDb "5m" 0 emptyDb) = computeMovesDb "5m" 0 emptyDb := by
  constructor
  · apply engine_idempotent.1
    · exact List.nodup_nil
    · exact List.nodup_nil
    · rw [show ([recSimpleMarket].filter (fun m => decide (¬ deriveId m = ""))).map deriveId
            = ["mkt1"] from rfl]
      exact List.nodup_singleton _
  · exact engine_idempotent.2 emptyDb "5m" 0 List.nodup_nil

/-! ## Market-id derivation at ingestion (claim C9) -/

/-- The id-derivation rule as the claim states it: the first of the
fields `id`, `market_id`, `slug` whose stringified value is a non-empty
string (empty if no field qualifies). -/
def deriveIdSpecC9 (m : JsonVal) : String :=
  ((["id", "market_id", "slug"].filterMap (fun k => (jGet m k).map jsToString)).filter
    (fun s => decide (¬ s = ""))).headD ""

/-- C9 (counterexample): the code takes `String(m?.id ?? m?.market_id ??
m?.slug ?? "")` — the first *non-nullish* field, not the first field
yielding a non-empty string.  On a record with `id = ""` and
`market_id = "abc"` the code derives `""` and skips the record entirely,
while the claimed rule would derive `"abc"`. -/
theorem deriveId_spec_counterexample :
    (¬ ∀ m : JsonVal, deriveId m = deriveIdSpecC9 m) ∧
    deriveId recEmptyId = "" ∧
    deriveIdSpecC9 recEmptyId = "abc" ∧
    ingestRows 5 [recEmptyId] = ([], []) := by
  refine ⟨?_, rfl, rfl, rfl⟩
  intro h
  have hc := h recEmptyId
  rw [show deriveId recEmptyId = "" from rfl,
      show deriveIdSpecC9 recEmptyId = "abc" from rfl] at hc
  exact absurd hc (by decide)

/-- C9 (amended): the market id is the stringification of the first
non-nullish of the fields `id`, `market_id`, `slug` (the empty string when
all are nullish), and a record whose derived id is the empty string is
skipped entirely — it contributes no market row and no snapshot row. -/
theorem ingestRows_skips_empty :
    ∀ (ts : Int) (ms : List JsonVal),
      ingestRows ts ms =
        ((ms.filter (fun m => decide (¬ deriveId m = ""))).map (marketRowOf ts),
         (ms.filter (fun m => decide (¬ deriveId m = ""))).map (snapshotRowOf ts)) ∧
      ∀ m : JsonVal,
        (marketRowOf ts m).market_id = deriveId m ∧
        (snapshotRowOf ts m).market_id = deriveId m ∧
        deriveId m = (match jGetChain m ["id", "market_id", "slug"] with
                      | some v => jsToString v
                      | none => "") :=
  fun ts ms => ⟨ingestRows_eq ts ms, fun _ => ⟨rfl, rfl, rfl⟩⟩

end JsEngine
